import Mathlib

/-!
Shallow embedding of the non-native bigint gadgets of
`src/plonk/circuit/bigint/bigint.rs` (the `simple_add`, `simple_sub`,
`simple_mul`, `simple_div` functions and the splitting utilities), at the
witness level, together with a symbolic trace of the constraints emitted by
the add/sub gadgets.

Conventions used throughout:
  * `BigUint` values are `Nat`; field elements are represented by their
    canonical integer value (a natural number below the field modulus).
  * A Rust `panic!` / failed `assert!` / failed `unwrap()` is `none`.
  * The source assertion `fe.bits() <= w * n` (BigUint `bits`) is translated
    by the equivalent condition `fe < 2^(w*n)`.
  * The external range-check gadget
    (`enforce_using_single_column_table_for_shifted_variable_optimized`,
    not part of this repository's sources) is — modelled from the spec:
    `range_check(variable, width)` merely records the obligation that the
    variable lies in `[0, 2^width)`; it does not alter witness values and
    does not abort witness generation.  It appears in the symbolic traces
    as an atomic `(variable, width)` obligation.
-/

namespace Franklin

/-- A circuit value (`Num` in the source): either a compile-time constant
field element, or a witness variable whose value may be absent.  The first
field of `var` is the variable's identifier in the constraint system (used
only by the symbolic traces); the second is its optional witness value. -/
inductive NumE where
  | const : Nat → NumE
  | var : Nat → Option Nat → NumE
deriving DecidableEq

/-- Modulus of the BN254 scalar field `Fr`, the native field of the
constraint system the gadgets run over (`bn256::Fr` in the tests);
`biguint_to_fe` / `F::from_str` reduce an integer into this field. -/
def rFr : Nat :=
  21888242871839275222246405745257275088548364400416034343698204186575808495617

/-- The BN254 base-field modulus hard-coded in `simple_mul`
(`field_modulus`, line 884 of the source). -/
def bn254q : Nat :=
  21888242871839275222246405745257275088696311157297823662689037894645226208583

/-- BigUint `bits()` (binary length), computed with structural fuel
recursion: `bits 0 = 0`, otherwise `bits n = bits (n / 2) + 1`. -/
def bitsAux : Nat → Nat → Nat
  | 0, _ => 0
  | fuel + 1, n => if n = 0 then 0 else bitsAux fuel (n / 2) + 1

/-- Binary length of a natural number (`BigUint::bits`). -/
def bits (n : Nat) : Nat := bitsAux n n

/-- The common splitting loop of the source: push `fe % 2^w`, then shift
`fe` right by `w`, for a fixed number of rounds (least significant limb
first). -/
def splitGo (w : Nat) : Nat → Nat → List Nat
  | _, 0 => []
  | fe, n + 1 => fe % 2 ^ w :: splitGo w (fe / 2 ^ w) n

/-- `split_some_into_fixed_number_of_limbs` on a present value (source
lines 297-320).  The source asserts `fe.bits() <= bits_per_limb *
num_limbs` and panics otherwise (modelled as `none`); the assertion is
equivalent to `fe < 2^(w*n)`. -/
def split_some (fe w n : Nat) : Option (List Nat) :=
  if fe < 2 ^ (w * n) then some (splitGo w fe n) else none

/-- `split_into_fixed_width_limbs` (source lines 276-295): computes
`num_limbs = ceil(bits fe / w)`, produces the limbs least-significant
first, then REVERSES the list before returning it.  Precondition of the
source: `w > 0` (Rust division by zero panics at `w = 0`). -/
def split_into_fixed_width_limbs (fe w : Nat) : List Nat :=
  (splitGo w fe (bits fe / w + if bits fe % w ≠ 0 then 1 else 0)).reverse

/-- Recomposition of a limb sequence, least-significant limb first:
`recompose w [l0, l1, ...] = l0 + 2^w * (l1 + 2^w * (...))`. -/
def recompose (w : Nat) : List Nat → Nat
  | [] => 0
  | l :: ls => l + 2 ^ w * recompose w ls

/-- Reading one operand limb, as in the input `match` of all four gadgets:
a constant contributes its field value directly; a variable contributes
`var.get_value().unwrap()` — `none` (panic) when the witness is absent. -/
def readLimbValue : NumE → Option Nat
  | .const v => some v
  | .var _ w => w

/-- The operand-recomposition loop shared by all four gadgets:
`big += v * (1 << (64 * i))` over the operand limbs, reading each limb with
`readLimbValue`. -/
def readOperandAux : List NumE → Nat → Option Nat
  | [], _ => some 0
  | x :: xs, i =>
    (readLimbValue x).bind fun v =>
      (readOperandAux xs (i + 1)).bind fun rest =>
        some (v * 2 ^ (64 * i) + rest)

/-- Recomposed integer value of an operand (the `big_big_biguint_*`
accumulators of the source). -/
def readOperand (xs : List NumE) : Option Nat := readOperandAux xs 0

/-- Wrap a list of witness values as variable limbs (ids are irrelevant to
the witness computation). -/
def varLimbs (ls : List Nat) : List NumE := ls.map fun x => NumE.var 0 (some x)

/-- The per-limb carry loop of `simple_add` (source lines 567-619), on the
already-split limbs; returns the list of `(output limb, carry-out)` pairs.
Per iteration: `new_limb = l + r + pre_of`;
`of = ((l % 2^64) + (r % 2^64)) >> 64` (note: the carry-in `pre_of` is NOT
part of this expression in the source); the pushed output limb is
`new_limb - of * 2^64` when `of ≠ 0` and `new_limb` otherwise. -/
def addChain : List Nat → List Nat → Nat → List (Nat × Nat)
  | l :: ls, r :: rs, preOf =>
    let newLimb := l + r + preOf
    let carry := (l % 2 ^ 64 + r % 2 ^ 64) / 2 ^ 64
    let c := if carry ≠ 0 then newLimb - carry * 2 ^ 64 else newLimb
    (c, carry) :: addChain ls rs carry
  | _, _, _ => []

/-- `simple_add` (source lines 524-629) at the witness level: read and
recompose both operands (panicking on an absent variable witness), split
each into 4 × 64-bit limbs (assertion `bits ≤ 256`), run the carry chain,
and return the output limbs, projected into the native field by
`some_biguint_to_fe` (reduction mod `rFr`). -/
def simple_add (a b : List NumE) : Option (List Nat) :=
  (readOperand a).bind fun A =>
    (readOperand b).bind fun B =>
      (split_some A 64 4).bind fun aL =>
        (split_some B 64 4).bind fun bL =>
          some (((addChain aL bL 0).map Prod.fst).map fun x => x % rFr)

/-- The per-limb borrow loop of `simple_sub` (source lines 669-721).  The
source computes `l - pre_borrow` on `BigUint` to compare it with `r`; this
subtraction panics when `l < pre_borrow` (modelled as `none`).  Otherwise:
if `l - pre_borrow < r` the output limb is `l + 2^64 - r - pre_borrow`
with borrow-out 1, else `l - r - pre_borrow` with borrow-out 0. -/
def subChain : List Nat → List Nat → Nat → Option (List Nat)
  | l :: ls, r :: rs, preB =>
    if l < preB then none
    else if l - preB < r then
      (subChain ls rs 1).bind fun rest => some ((l + 2 ^ 64 - r - preB) :: rest)
    else
      (subChain ls rs 0).bind fun rest => some ((l - r - preB) :: rest)
  | _, _, _ => some []

/-- `simple_sub` (source lines 630-731) at the witness level. -/
def simple_sub (a b : List NumE) : Option (List Nat) :=
  (readOperand a).bind fun A =>
    (readOperand b).bind fun B =>
      (split_some A 64 4).bind fun aL =>
        (split_some B 64 4).bind fun bL =>
          (subChain aL bL 0).bind fun cL =>
            some (cL.map fun x => x % rFr)

/-- One column total of the product-certification loop of `simple_mul`
(source lines 800-836, without the carry-in): the limb products `a_i*b_j`
with `i + j = 2k` at weight 1 plus those with `i + j = 2k + 1` at weight
`2^64`, both restricted to `i, j < 4`. -/
def mulColumn (aL bL : List Nat) (k : Nat) : Nat :=
  ((List.range (2 * k + 1)).map fun i =>
      if i < 4 ∧ 2 * k - i < 4 then aL.getD i 0 * bL.getD (2 * k - i) 0 else 0).sum
  + 2 ^ 64 *
    ((List.range (2 * k + 2)).map fun i =>
      if i < 4 ∧ 2 * k + 1 - i < 4 then aL.getD i 0 * bL.getD (2 * k + 1 - i) 0 else 0).sum

/-- The product-certification loop of `simple_mul` (source lines 791-863),
columns `k, k+1, ...` for `n` rounds: the column total is
`mul_term = mulColumn k + pre_of`; the witness overflow term is computed,
exactly as written in the source (line 841), as
`of = (mul_term % 2^128) >> 128`; the output limb is
`mul_term - of * 2^128`.  Returns the `(output limb, overflow)` pairs. -/
def mulChainGo (aL bL : List Nat) : Nat → Nat → Nat → List (Nat × Nat)
  | _, 0, _ => []
  | k, n + 1, preOf =>
    let t := mulColumn aL bL k + preOf
    let ov := t % 2 ^ 128 / 2 ^ 128
    (t - ov * 2 ^ 128, ov) :: mulChainGo aL bL (k + 1) n ov

/-- The four columns of the product-certification loop of `simple_mul`. -/
def mulChain (aL bL : List Nat) : List (Nat × Nat) := mulChainGo aL bL 0 4 0

/-- `simple_mul` (source lines 732-996) at the witness level.  In source
order: read and recompose the operands; split `a*b` into 4 × 128-bit limbs
(line 766, assertion `bits ≤ 512`); split the operands into 4 × 64-bit
limbs; run the product-certification chain and recompose its output limbs
into `number` (lines 868-873); split `number` into 4 × 128-bit limbs (line
875); take `result = number mod p` and split it into 2 × 128-bit limbs
(the returned remainder limbs); split the modulus and the quotient
`number / p` into 4 × 64-bit limbs — the quotient split is where the
assertion `bits ≤ 256` can fail.  The `assert_eq!` of line 901 compares
`number % p` with itself and can never fire, so it is not modelled.  The
reduction-certification loop (lines 924-992) only allocates and constrains
further variables: its witness computation cannot fail and does not feed
the returned value, so it has no witness-level effect. -/
def simple_mul (a b : List NumE) : Option (List Nat) :=
  (readOperand a).bind fun A =>
    (readOperand b).bind fun B =>
      (split_some (A * B) 128 4).bind fun _ =>
        (split_some A 64 4).bind fun aL =>
          (split_some B 64 4).bind fun bL =>
            let number := recompose 128 ((mulChain aL bL).map Prod.fst)
            (split_some number 128 4).bind fun _ =>
              (split_some (number % bn254q) 128 2).bind fun remL =>
                (split_some bn254q 64 4).bind fun _ =>
                  (split_some (number / bn254q) 64 4).bind fun _ =>
                    some (remL.map fun x => x % rFr)

/-- `simple_div` (source lines 1247-1403) at the witness level.  In source
order: read and recompose the 8-limb dividend and 4-limb divisor;
`div_rem` (panics when the divisor is zero); split the quotient into
8 × 64-bit limbs (these are the returned limbs), the divisor into
8 × 64-bit limbs and the remainder into 4 × 64-bit limbs.  The
certification loop (lines 1306-1399) only allocates and constrains: its
witness computation cannot fail and does not feed the returned value. -/
def simple_div (a b : List NumE) : Option (List Nat) :=
  (readOperand a).bind fun A =>
    (readOperand b).bind fun B =>
      if B = 0 then none
      else
        (split_some (A / B) 64 8).bind fun qL =>
          (split_some B 64 8).bind fun _ =>
            (split_some (A % B) 64 4).bind fun _ =>
              some (qL.map fun x => x % rFr)

/-- A reference to a constraint-system variable, as seen from one gadget
call: either a caller-supplied input variable (with its id) or the `n`-th
variable freshly allocated inside the call. -/
inductive VarRef where
  | input : Nat → VarRef
  | fresh : Nat → VarRef
deriving DecidableEq, BEq

/-- The constraint-system side effects of one gadget call: the variables
returned to the caller, the linear constraints (lists of
coefficient/variable terms, `none` standing for a constant term), the
range-check obligations `(variable, width)`, and the booleanity
obligations of the allocated carry/borrow bits. -/
structure GadgetTrace where
  results : List VarRef
  constraints : List (List (Int × Option VarRef))
  rangeChecks : List (VarRef × Nat)
  boolChecks : List VarRef

/-- Range checks emitted by the shared input loop of all four gadgets:
each `Variable` operand limb gets a 64-bit range check; a `Constant` limb
gets none (source lines 530-554 and the identical loops of the other
gadgets). -/
def inputRangeChecks : List NumE → List (VarRef × Nat)
  | [] => []
  | .const _ :: xs => inputRangeChecks xs
  | .var id _ :: xs => (VarRef.input id, 64) :: inputRangeChecks xs

/-- The linear constraint emitted by iteration `k` of the `simple_add`
loop (source lines 607-614).  Freshly allocated variables are numbered in
allocation order: iteration `k` allocates `a` (`4k`), `b` (`4k+1`), the
carry bit (`4k+2`) and the output limb `c` (`4k+3`).  Terms:
`a + b + pre_of - c - 2^64 * of = 0`; at `k = 0` the carry-in is the
constant `Boolean::zero()`. -/
def addLoopConstraint (k : Nat) : List (Int × Option VarRef) :=
  [(1, some (VarRef.fresh (4 * k))), (1, some (VarRef.fresh (4 * k + 1))),
   (1, if k = 0 then none else some (VarRef.fresh (4 * k - 2))),
   (-1, some (VarRef.fresh (4 * k + 3))),
   (-(2 ^ 64 : Int), some (VarRef.fresh (4 * k + 2)))]

/-- The linear constraint emitted by iteration `k` of the `simple_sub`
loop (source lines 709-716): `a - b - pre_borrow - c + 2^64 * borrow = 0`,
with the same allocation numbering as `addLoopConstraint`. -/
def subLoopConstraint (k : Nat) : List (Int × Option VarRef) :=
  [(1, some (VarRef.fresh (4 * k))), (-1, some (VarRef.fresh (4 * k + 1))),
   (-1, if k = 0 then none else some (VarRef.fresh (4 * k - 2))),
   (-1, some (VarRef.fresh (4 * k + 3))),
   ((2 ^ 64 : Int), some (VarRef.fresh (4 * k + 2)))]

/-- Symbolic trace of a completed `simple_add` call: per iteration `k` the
allocations `a,b,of,c` (fresh `4k .. 4k+3`), the 64-bit range check on `c`
and the linear carry constraint; after the loop, the four RESULT variables
are freshly allocated (fresh `16 .. 19`, source lines 620-627) with no
constraint, no range check and no booleanity obligation referencing
them. -/
def addTrace (a b : List NumE) : GadgetTrace where
  results := [VarRef.fresh 16, VarRef.fresh 17, VarRef.fresh 18, VarRef.fresh 19]
  constraints := (List.range 4).map addLoopConstraint
  rangeChecks :=
    inputRangeChecks a ++ inputRangeChecks b
      ++ (List.range 4).map fun k => (VarRef.fresh (4 * k + 3), 64)
  boolChecks := (List.range 4).map fun k => VarRef.fresh (4 * k + 2)

/-- Symbolic trace of a completed `simple_sub` call (source lines 630-731;
result allocations at lines 722-728), with the same allocation layout as
`addTrace`. -/
def subTrace (a b : List NumE) : GadgetTrace where
  results := [VarRef.fresh 16, VarRef.fresh 17, VarRef.fresh 18, VarRef.fresh 19]
  constraints := (List.range 4).map subLoopConstraint
  rangeChecks :=
    inputRangeChecks a ++ inputRangeChecks b
      ++ (List.range 4).map fun k => (VarRef.fresh (4 * k + 3), 64)
  boolChecks := (List.range 4).map fun k => VarRef.fresh (4 * k + 2)

/-- Does a linear-constraint term mention the given variable? -/
def termMentions (r : VarRef) (t : Int × Option VarRef) : Bool :=
  match t.2 with
  | some s => s == r
  | none => false

/-- Decidable check that every result variable of a trace is mentioned by
no linear constraint, no range-check obligation and no booleanity
obligation of the trace. -/
def traceUnconstrained (tr : GadgetTrace) : Bool :=
  tr.results.all fun r =>
    (tr.constraints.all fun c => c.all fun t => !termMentions r t)
      && (tr.rangeChecks.all fun rc => !(rc.1 == r))
      && (tr.boolChecks.all fun v => !(v == r))

/-! ## Supporting lemmas -/

theorem bitsAux_lt (fuel : Nat) : ∀ n, n ≤ fuel → n < 2 ^ bitsAux fuel n := by
  induction fuel with
  | zero =>
    intro n hn
    have : n = 0 := Nat.le_zero.mp hn
    subst this
    simp [bitsAux]
  | succ f ih =>
    intro n hn
    by_cases h0 : n = 0
    · subst h0; simp [bitsAux]
    · have hrec : n / 2 ≤ f := by
        have := Nat.div_lt_self (Nat.pos_of_ne_zero h0) (one_lt_two)
        omega
      have hdiv := ih (n / 2) hrec
      have hdm := Nat.div_add_mod n 2
      have hmod := Nat.mod_lt n (show 0 < 2 by norm_num)
      simp only [bitsAux, h0, if_false, pow_succ]
      omega

theorem bits_lt (n : Nat) : n < 2 ^ bits n := bitsAux_lt n n (le_refl n)

theorem recompose_splitGo (w : Nat) : ∀ n fe, recompose w (splitGo w fe n) = fe % 2 ^ (w * n) := by
  intro n
  induction n with
  | zero => intro fe; simp [splitGo, recompose, Nat.mod_one]
  | succ n ih =>
    intro fe
    rw [splitGo, recompose, ih, show w * (n + 1) = w + w * n by ring, pow_add, Nat.mod_mul]

theorem splitGo_mem_lt (w : Nat) : ∀ n fe x, x ∈ splitGo w fe n → x < 2 ^ w := by
  intro n
  induction n with
  | zero => intro fe x hx; simp [splitGo] at hx
  | succ n ih =>
    intro fe x hx
    rw [splitGo] at hx
    rcases List.mem_cons.mp hx with rfl | hx
    · exact Nat.mod_lt _ (Nat.two_pow_pos w)
    · exact ih _ x hx

theorem recompose_lt (w : Nat) :
    ∀ ls : List Nat, (∀ x ∈ ls, x < 2 ^ w) → recompose w ls < 2 ^ (w * ls.length) := by
  intro ls
  induction ls with
  | nil => intro _; simp [recompose]
  | cons l ls ih =>
    intro h
    have h1 : l < 2 ^ w := h l (List.mem_cons_self l ls)
    have h2 : recompose w ls < 2 ^ (w * ls.length) :=
      ih fun x hx => h x (List.mem_cons_of_mem _ hx)
    have hpow : 2 ^ (w * (l :: ls).length) = 2 ^ w * 2 ^ (w * ls.length) := by
      rw [List.length_cons, show w * (ls.length + 1) = w + w * ls.length by ring, pow_add]
    rw [recompose, hpow]
    calc l + 2 ^ w * recompose w ls < 2 ^ w + 2 ^ w * recompose w ls := by omega
      _ = 2 ^ w * (recompose w ls + 1) := by ring
      _ ≤ 2 ^ w * 2 ^ (w * ls.length) := Nat.mul_le_mul_left _ (by omega)

theorem map_mod_eq_self (m : Nat) :
    ∀ ls : List Nat, (∀ x ∈ ls, x < m) → (ls.map fun x => x % m) = ls := by
  intro ls
  induction ls with
  | nil => intro _; rfl
  | cons l ls ih =>
    intro h
    rw [List.map_cons, Nat.mod_eq_of_lt (h l (List.mem_cons_self l ls)),
      ih fun x hx => h x (List.mem_cons_of_mem _ hx)]

theorem readOperandAux_vars (ls : List Nat) : ∀ i : Nat,
    readOperandAux (ls.map fun x => NumE.var 0 (some x)) i
      = some (2 ^ (64 * i) * recompose 64 ls) := by
  induction ls with
  | nil => intro i; simp [readOperandAux, recompose]
  | cons l ls ih =>
    intro i
    simp only [List.map_cons, readOperandAux, readLimbValue, Option.some_bind, ih (i + 1),
      recompose]
    congr 1
    rw [show 64 * (i + 1) = 64 * i + 64 by ring, pow_add]
    ring

theorem readOperand_vars (ls : List Nat) :
    readOperand (varLimbs ls) = some (recompose 64 ls) := by
  rw [readOperand, varLimbs, readOperandAux_vars]
  simp

/-! ## The claims -/

set_option maxRecDepth 8000 in
/-- C1: the claim states that for every pair of 4-limb operands with 64-bit
limbs `simple_mul` returns two remainder limbs recomposing to
`(a*b) mod p`.  The code instead panics on the boundary input with every
limb equal to `2^64 - 1`: the quotient `(a*b) / p` then needs 259 bits,
and the split of the quotient into 4 × 64-bit limbs (source line 911) hits
the assertion `fe.bits() <= 256` of
`split_some_into_fixed_number_of_limbs`.  The second conjunct records that
the quotient indeed exceeds the 256-bit capacity of that split. -/
theorem c1_simple_mul_panics_on_max_operands :
    simple_mul
        [NumE.var 0 (some (2 ^ 64 - 1)), NumE.var 1 (some (2 ^ 64 - 1)),
         NumE.var 2 (some (2 ^ 64 - 1)), NumE.var 3 (some (2 ^ 64 - 1))]
        [NumE.var 4 (some (2 ^ 64 - 1)), NumE.var 5 (some (2 ^ 64 - 1)),
         NumE.var 6 (some (2 ^ 64 - 1)), NumE.var 7 (some (2 ^ 64 - 1))] = none
      ∧ ¬ (2 ^ 256 - 1) * (2 ^ 256 - 1) / bn254q < 2 ^ (64 * 4) := by
  constructor
  · rfl
  · decide

/-- C2: the claim states that in the product-certification loop of
`simple_mul` the witness output limb `c_k` is the column total reduced
modulo `2^128` and the witness overflow `of_k` is the quotient of that
division.  In the code (line 841) the overflow is computed as
`(mul_term % 2^128) >> 128`, which is identically zero, so for the
all-ones operands the column-1 total `(2^64-1)^2 * (3 + 2^66)` (which is
`mulColumn 1` plus the zero overflow of column 0) is returned unreduced as
`c_1` with `of_1 = 0`, although the total exceeds `2^128` and its true
quotient by `2^128` is nonzero. -/
theorem c2_simple_mul_overflow_term_is_zero :
    (mulChain [2 ^ 64 - 1, 2 ^ 64 - 1, 2 ^ 64 - 1, 2 ^ 64 - 1]
          [2 ^ 64 - 1, 2 ^ 64 - 1, 2 ^ 64 - 1, 2 ^ 64 - 1]).getD 1 (0, 0)
        = ((2 ^ 64 - 1) ^ 2 * (3 + 2 ^ 66), 0)
      ∧ mulColumn [2 ^ 64 - 1, 2 ^ 64 - 1, 2 ^ 64 - 1, 2 ^ 64 - 1]
          [2 ^ 64 - 1, 2 ^ 64 - 1, 2 ^ 64 - 1, 2 ^ 64 - 1] 1 + 0
        = (2 ^ 64 - 1) ^ 2 * (3 + 2 ^ 66)
      ∧ (2 ^ 64 - 1) ^ 2 * (3 + 2 ^ 66) / 2 ^ 128 ≠ 0
      ∧ ¬ (2 ^ 64 - 1) ^ 2 * (3 + 2 ^ 66) < 2 ^ 128 := by
  decide

/-- C3: the claim states that when `recompose a + recompose b ≥ 2^256` the
output limbs of `simple_add` recompose to `(a + b) mod 2^256` and that
every output limb is at most `2^64 - 1`.  At `a = 2^256 - 1`, `b = 1` the
code returns the limbs `[0, 2^64, 2^64-1, 2^64-1]`: they recompose to
`2^256` (not to `(a+b) mod 2^256 = 0`) and the second limb is `2^64`,
exceeding `2^64 - 1` — the 64-bit range check emitted on that very limb
(source line 596) is therefore unsatisfiable, betraying the carry slip of
line 576 (the carry-in is missing from the carry-out computation). -/
theorem c3_simple_add_wraparound_bug :
    simple_add
        [NumE.var 0 (some (2 ^ 64 - 1)), NumE.var 1 (some (2 ^ 64 - 1)),
         NumE.var 2 (some (2 ^ 64 - 1)), NumE.var 3 (some (2 ^ 64 - 1))]
        [NumE.var 4 (some 1), NumE.var 5 (some 0), NumE.var 6 (some 0), NumE.var 7 (some 0)]
        = some [0, 2 ^ 64, 2 ^ 64 - 1, 2 ^ 64 - 1]
      ∧ recompose 64 [0, 2 ^ 64, 2 ^ 64 - 1, 2 ^ 64 - 1] = 2 ^ 256
      ∧ (2 ^ 256 - 1 + 1) % 2 ^ 256 = 0
      ∧ ¬ 2 ^ 64 ≤ 2 ^ 64 - 1 := by
  constructor
  · rfl
  · decide

/-- C4: the claim states that the witness carry-out of position `i` of
`simple_add` is `((a_i mod 2^64) + (b_i mod 2^64) + carry_in_i) >> 64`.
The source (line 576) computes it without the carry-in.  On the split
limbs `a = (2^64-1, 2^64-1, 0, 0)`, `b = (1, 0, 0, 0)` the code's carry
chain is `[1, 0, 0, 0]` — the carry into position 1 is 1, and the claimed
formula gives carry-out 1 at position 1, yet the code produces 0 there. -/
theorem c4_simple_add_carry_omits_carry_in :
    ((addChain [2 ^ 64 - 1, 2 ^ 64 - 1, 0, 0] [1, 0, 0, 0] 0).map Prod.snd) = [1, 0, 0, 0]
      ∧ ((2 ^ 64 - 1) % 2 ^ 64 + (0 : Nat) % 2 ^ 64 + 1) / 2 ^ 64 = 1
      ∧ (1 : Nat) ≠ 0 := by
  decide

/-- C5: the claim states that for operands with `recompose a ≥ recompose b`
`simple_sub` returns normally with limbs recomposing to the difference.
At `a = 2^128` (limbs `(0, 0, 1, 0)`), `b = 1` the borrow of limb 0 is 1,
and at limb 1 the source evaluates `l - pre_borrow = 0 - 1` on `BigUint`
(line 678), which panics on underflow, so the gadget aborts although
`a ≥ b`. -/
theorem c5_simple_sub_panics_despite_ge :
    recompose 64 [0, 0, 1, 0] = 2 ^ 128
      ∧ (1 : Nat) ≤ 2 ^ 128
      ∧ simple_sub
          [NumE.var 0 (some 0), NumE.var 1 (some 0), NumE.var 2 (some 1), NumE.var 3 (some 0)]
          [NumE.var 4 (some 1), NumE.var 5 (some 0), NumE.var 6 (some 0), NumE.var 7 (some 0)]
        = none := by
  refine ⟨by decide, by decide, rfl⟩

/-- C7 counterexample: the claim states that `split_into_fixed_width_limbs`
is the least-significant-limb-first decomposition, so that recomposing its
output with index 0 at weight `2^0` yields the input.  At `v = 256`,
`w = 8` the function returns `[1, 0]` (most significant limb first, due to
the final `limbs.reverse()` of the source), which recomposes
least-significant-first to `1 ≠ 256`. -/
theorem c7_split_counterexample :
    split_into_fixed_width_limbs 256 8 = [1, 0]
      ∧ recompose 8 (split_into_fixed_width_limbs 256 8) = 1
      ∧ (1 : Nat) ≠ 256 := by
  decide

/-- C7 (amended): `split_into_fixed_width_limbs v w` is the
MOST-significant-limb-first base-`2^w` decomposition of `v`: recomposing
its REVERSE least-significant-first yields `v`, for every `v` and every
positive width `w`. -/
theorem c7_split_msb_recompose (v w : Nat) (hw : 0 < w) :
    recompose w (split_into_fixed_width_limbs v w).reverse = v := by
  rw [split_into_fixed_width_limbs, List.reverse_reverse, recompose_splitGo]
  apply Nat.mod_eq_of_lt
  refine lt_of_lt_of_le (bits_lt v) (Nat.pow_le_pow_right (by norm_num) ?_)
  have hdm := Nat.div_add_mod (bits v) w
  have hmod : bits v % w < w := Nat.mod_lt _ hw
  by_cases h : bits v % w = 0
  · simp only [h, ne_eq, not_true_eq_false, if_false, Nat.add_zero]
    omega
  · rw [if_pos h, Nat.mul_add, Nat.mul_one]
    omega

/-- C7 witness: the amended statement at `v = 256`, `w = 8`. -/
theorem c7_split_msb_recompose_witness :
    0 < 8 ∧ recompose 8 (split_into_fixed_width_limbs 256 8).reverse = 256 :=
  ⟨by decide, c7_split_msb_recompose 256 8 (by decide)⟩

/-- C6: for every 8-limb dividend and 4-limb divisor whose limbs are
64-bit values, with nonzero recomposed divisor `B`, `simple_div` returns
the 8 base-`2^64` limbs of the quotient `A / B`; they recompose to a
quotient `q` with `q * B + (A mod B) = A` and `A mod B < B`. -/
theorem c6_simple_div_correct (la lb : List Nat)
    (hla : la.length = 8) (hlb : lb.length = 4)
    (ha : ∀ x ∈ la, x < 2 ^ 64) (hb : ∀ x ∈ lb, x < 2 ^ 64)
    (hB : recompose 64 lb ≠ 0) :
    simple_div (varLimbs la) (varLimbs lb)
        = some (splitGo 64 (recompose 64 la / recompose 64 lb) 8)
      ∧ recompose 64 (splitGo 64 (recompose 64 la / recompose 64 lb) 8) * recompose 64 lb
          + recompose 64 la % recompose 64 lb
        = recompose 64 la
      ∧ recompose 64 la % recompose 64 lb < recompose 64 lb := by
  have hA8 : recompose 64 la < 2 ^ (64 * 8) := by
    have := recompose_lt 64 la ha
    rwa [hla] at this
  have hB4 : recompose 64 lb < 2 ^ (64 * 4) := by
    have := recompose_lt 64 lb hb
    rwa [hlb] at this
  have hBpos : 0 < recompose 64 lb := Nat.pos_of_ne_zero hB
  have hq : recompose 64 la / recompose 64 lb < 2 ^ (64 * 8) :=
    lt_of_le_of_lt (Nat.div_le_self _ _) hA8
  have hB8 : recompose 64 lb < 2 ^ (64 * 8) :=
    lt_of_lt_of_le hB4 (Nat.pow_le_pow_right (by norm_num) (by norm_num))
  have hrem : recompose 64 la % recompose 64 lb < 2 ^ (64 * 4) :=
    lt_trans (Nat.mod_lt _ hBpos) hB4
  refine ⟨?_, ?_, Nat.mod_lt _ hBpos⟩
  · rw [simple_div, readOperand_vars, readOperand_vars, Option.some_bind, Option.some_bind,
      if_neg hB, split_some, if_pos hq, Option.some_bind, split_some, if_pos hB8,
      Option.some_bind, split_some, if_pos hrem, Option.some_bind]
    congr 1
    apply map_mod_eq_self
    intro x hx
    exact lt_trans (splitGo_mem_lt 64 8 _ x hx) (by decide)
  · rw [recompose_splitGo, Nat.mod_eq_of_lt hq, Nat.mul_comm]
    exact Nat.div_add_mod _ _

/-- C6 witness: the concrete scenario of the spec, dividend 132 and
divisor 11 (single nonzero limb each), quotient 12 and remainder 0. -/
theorem c6_simple_div_correct_witness :
    simple_div (varLimbs [132, 0, 0, 0, 0, 0, 0, 0]) (varLimbs [11, 0, 0, 0])
        = some (splitGo 64 (recompose 64 [132, 0, 0, 0, 0, 0, 0, 0] / recompose 64 [11, 0, 0, 0]) 8)
      ∧ recompose 64
            (splitGo 64 (recompose 64 [132, 0, 0, 0, 0, 0, 0, 0] / recompose 64 [11, 0, 0, 0]) 8)
            * recompose 64 [11, 0, 0, 0]
          + recompose 64 [132, 0, 0, 0, 0, 0, 0, 0] % recompose 64 [11, 0, 0, 0]
        = recompose 64 [132, 0, 0, 0, 0, 0, 0, 0]
      ∧ recompose 64 [132, 0, 0, 0, 0, 0, 0, 0] % recompose 64 [11, 0, 0, 0]
        < recompose 64 [11, 0, 0, 0] :=
  c6_simple_div_correct [132, 0, 0, 0, 0, 0, 0, 0] [11, 0, 0, 0] (by decide) (by decide)
    (by decide) (by decide) (by decide)

theorem input_beq_fresh (i k : Nat) : (VarRef.input i == VarRef.fresh k) = false := rfl

theorem inputChecks_no_fresh (xs : List NumE) (k : Nat) :
    (inputRangeChecks xs).all (fun rc => !(rc.1 == VarRef.fresh k)) = true := by
  induction xs with
  | nil => rfl
  | cons x xs ih =>
    cases x with
    | const c => simpa [inputRangeChecks] using ih
    | var id w => simpa [inputRangeChecks, input_beq_fresh] using ih

/-- C8: the output limbs returned by `simple_add` and `simple_sub` are
freshly allocated after the carry/borrow loop and appear in no linear
constraint, no range-check obligation and no booleanity obligation emitted
by the call — the constraint system leaves the returned variables entirely
unconstrained. -/
theorem c8_add_sub_results_unconstrained :
    (∀ a b out, simple_add a b = some out → traceUnconstrained (addTrace a b) = true)
      ∧ (∀ a b out, simple_sub a b = some out → traceUnconstrained (subTrace a b) = true) := by
  constructor
  · intro a b out _h
    rw [traceUnconstrained]
    refine List.all_eq_true.mpr ?_
    intro r hr
    have hrc : (addTrace a b).rangeChecks
        = inputRangeChecks a ++ inputRangeChecks b
          ++ (List.range 4).map (fun k => (VarRef.fresh (4 * k + 3), 64)) := rfl
    simp only [addTrace, List.mem_cons, List.not_mem_nil, or_false] at hr
    simp only [addTrace]
    rcases hr with rfl | rfl | rfl | rfl <;>
      (simp only [Bool.and_eq_true, List.all_append]
       exact ⟨⟨by decide,
         ⟨⟨inputChecks_no_fresh a _, inputChecks_no_fresh b _⟩, by decide⟩⟩, by decide⟩)
  · intro a b out _h
    rw [traceUnconstrained]
    refine List.all_eq_true.mpr ?_
    intro r hr
    simp only [subTrace, List.mem_cons, List.not_mem_nil, or_false] at hr
    simp only [subTrace]
    rcases hr with rfl | rfl | rfl | rfl <;>
      (simp only [Bool.and_eq_true, List.all_append]
       exact ⟨⟨by decide,
         ⟨⟨inputChecks_no_fresh a _, inputChecks_no_fresh b _⟩, by decide⟩⟩, by decide⟩)

/-- C8 witness: the unconstrainedness checks evaluated on completed
`simple_add` and `simple_sub` calls with concrete variable operands. -/
theorem c8_add_sub_results_unconstrained_witness :
    traceUnconstrained
        (addTrace
          [NumE.var 0 (some 5), NumE.var 1 (some 5), NumE.var 2 (some 5), NumE.var 3 (some 5)]
          [NumE.var 4 (some 1), NumE.var 5 (some 1), NumE.var 6 (some 1), NumE.var 7 (some 1)])
      = true
      ∧ traceUnconstrained
          (subTrace
            [NumE.var 0 (some 5), NumE.var 1 (some 5), NumE.var 2 (some 5), NumE.var 3 (some 5)]
            [NumE.var 4 (some 1), NumE.var 5 (some 1), NumE.var 6 (some 1), NumE.var 7 (some 1)])
        = true :=
  ⟨c8_add_sub_results_unconstrained.1 _ _ _ rfl,
   c8_add_sub_results_unconstrained.2 _ _ _ rfl⟩

theorem readOperandAux_absent (id : Nat) (xs : List NumE) (h : NumE.var id none ∈ xs) :
    ∀ i, readOperandAux xs i = none := by
  induction xs with
  | nil => cases h
  | cons x xs ih =>
    intro i
    rcases List.mem_cons.mp h with hx | hx
    · rw [← hx]; rfl
    · rw [readOperandAux]
      simp only [ih hx (i + 1), Option.none_bind]
      cases readLimbValue x <;> rfl

/-- C9: each of the four gadgets unwraps the witness value of every
`Variable` operand limb while reading its operands, so when any operand
limb is a `Variable` with an absent value the gadget panics before
completing — the constraints-only (shape-without-values) path is not
supported by any of them. -/
theorem c9_missing_witness_aborts (id : Nat) (a b : List NumE)
    (h : NumE.var id none ∈ a ∨ NumE.var id none ∈ b) :
    simple_add a b = none ∧ simple_sub a b = none
      ∧ simple_mul a b = none ∧ simple_div a b = none := by
  rcases h with h | h
  · have ha : readOperand a = none := readOperandAux_absent id a h 0
    simp [simple_add, simple_sub, simple_mul, simple_div, ha]
  · have hb : readOperand b = none := readOperandAux_absent id b h 0
    rcases hA : readOperand a with _ | A <;>
      simp [simple_add, simple_sub, simple_mul, simple_div, hA, hb]

/-- C9 witness: a single absent-valued variable limb aborts all four
gadgets. -/
theorem c9_missing_witness_aborts_witness :
    simple_add [NumE.var 0 none] [] = none ∧ simple_sub [NumE.var 0 none] [] = none
      ∧ simple_mul [NumE.var 0 none] [] = none ∧ simple_div [NumE.var 0 none] [] = none :=
  c9_missing_witness_aborts 0 [NumE.var 0 none] [] (Or.inl (List.mem_singleton.mpr rfl))

theorem readOperand_const4 (v : Nat) :
    readOperand [NumE.const v, NumE.const 0, NumE.const 0, NumE.const 0] = some v := by
  simp [readOperand, readOperandAux, readLimbValue]

theorem readOperand_const8 (v : Nat) :
    readOperand [NumE.const v, NumE.const 0, NumE.const 0, NumE.const 0,
      NumE.const 0, NumE.const 0, NumE.const 0, NumE.const 0] = some v := by
  simp [readOperand, readOperandAux, readLimbValue]

theorem splitGo_zero_four (w : Nat) : splitGo w 0 4 = [0, 0, 0, 0] := by
  simp [splitGo, Nat.zero_mod, Nat.zero_div]

theorem splitGo_four (w fe : Nat) :
    splitGo w fe 4
      = [fe % 2 ^ w, fe / 2 ^ w % 2 ^ w, fe / 2 ^ w / 2 ^ w % 2 ^ w,
         fe / 2 ^ w / 2 ^ w / 2 ^ w % 2 ^ w] := rfl

theorem getD_four_zeros (j : Nat) : [0, 0, 0, 0].getD j (0 : Nat) = 0 := by
  rcases j with _ | _ | _ | _ | j <;> simp [List.getD]

theorem mulColumn_zero_right (aL : List Nat) (k : Nat) : mulColumn aL [0, 0, 0, 0] k = 0 := by
  rw [mulColumn]
  have h1 : (((List.range (2 * k + 1)).map fun i =>
      if i < 4 ∧ 2 * k - i < 4 then aL.getD i 0 * [0, 0, 0, 0].getD (2 * k - i) 0 else 0).sum)
      = 0 := by
    apply List.sum_eq_zero
    intro x hx
    rcases List.mem_map.mp hx with ⟨i, _, rfl⟩
    rw [getD_four_zeros, Nat.mul_zero, ite_self]
  have h2 : (((List.range (2 * k + 2)).map fun i =>
      if i < 4 ∧ 2 * k + 1 - i < 4 then aL.getD i 0 * [0, 0, 0, 0].getD (2 * k + 1 - i) 0
      else 0).sum) = 0 := by
    apply List.sum_eq_zero
    intro x hx
    rcases List.mem_map.mp hx with ⟨i, _, rfl⟩
    rw [getD_four_zeros, Nat.mul_zero, ite_self]
  rw [h1, h2, Nat.mul_zero, Nat.add_zero]

theorem mulChainGo_zero_right (aL : List Nat) :
    ∀ n k, mulChainGo aL [0, 0, 0, 0] k n 0 = List.replicate n (0, 0) := by
  intro n
  induction n with
  | zero => intro k; rfl
  | succ n ih =>
    intro k
    rw [mulChainGo, mulColumn_zero_right]
    simp only [Nat.add_zero, Nat.zero_mod, Nat.zero_div, Nat.zero_mul, Nat.sub_zero,
      Nat.zero_sub, Nat.mul_zero]
    rw [ih (k + 1), List.replicate_succ]

theorem mulChain_zero_right (aL : List Nat) :
    recompose 128 ((mulChain aL [0, 0, 0, 0]).map Prod.fst) = 0 := by
  rw [mulChain, mulChainGo_zero_right]
  rfl

theorem subChain_zero_right (l0 l1 l2 l3 : Nat) :
    subChain [l0, l1, l2, l3] [0, 0, 0, 0] 0 = some [l0, l1, l2, l3] := by
  simp [subChain, Nat.not_lt_zero, Nat.sub_zero]

set_option maxRecDepth 8000 in
/-- C10: in all four gadgets only `Variable` operand limbs receive the
64-bit input range check — a `Constant` limb contributes no check to the
shared input-check emission (first conjunct); a constant limb contributes
its full value to the recomposed operand regardless of magnitude (second
conjunct); and an operand whose first limb is an oversized constant — the
value `2^64` of 65 bits, or the largest representable field constant
`rFr - 1` of 254 bits — is accepted by all four gadgets with no shape or
magnitude error (remaining conjuncts). -/
theorem c10_constant_limbs_never_range_checked :
    (∀ xs : List NumE, (∀ x ∈ xs, ∃ c, x = NumE.const c) → inputRangeChecks xs = [])
      ∧ (∀ v : Nat,
          readOperand [NumE.const v, NumE.const 0, NumE.const 0, NumE.const 0] = some v)
      ∧ ((simple_add [NumE.const (2 ^ 64), NumE.const 0, NumE.const 0, NumE.const 0]
            [NumE.const 0, NumE.const 0, NumE.const 0, NumE.const 0]).isSome = true
          ∧ (simple_sub [NumE.const (2 ^ 64), NumE.const 0, NumE.const 0, NumE.const 0]
              [NumE.const 0, NumE.const 0, NumE.const 0, NumE.const 0]).isSome = true
          ∧ (simple_mul [NumE.const (2 ^ 64), NumE.const 0, NumE.const 0, NumE.const 0]
              [NumE.const 0, NumE.const 0, NumE.const 0, NumE.const 0]).isSome = true
          ∧ (simple_div [NumE.const (2 ^ 64), NumE.const 0, NumE.const 0, NumE.const 0,
              NumE.const 0, NumE.const 0, NumE.const 0, NumE.const 0]
              [NumE.const 1, NumE.const 0, NumE.const 0, NumE.const 0]).isSome = true)
      ∧ ((simple_add [NumE.const (rFr - 1), NumE.const 0, NumE.const 0, NumE.const 0]
            [NumE.const 0, NumE.const 0, NumE.const 0, NumE.const 0]).isSome = true
          ∧ (simple_sub [NumE.const (rFr - 1), NumE.const 0, NumE.const 0, NumE.const 0]
              [NumE.const 0, NumE.const 0, NumE.const 0, NumE.const 0]).isSome = true
          ∧ (simple_mul [NumE.const (rFr - 1), NumE.const 0, NumE.const 0, NumE.const 0]
              [NumE.const 0, NumE.const 0, NumE.const 0, NumE.const 0]).isSome = true
          ∧ (simple_div [NumE.const (rFr - 1), NumE.const 0, NumE.const 0, NumE.const 0,
              NumE.const 0, NumE.const 0, NumE.const 0, NumE.const 0]
              [NumE.const 1, NumE.const 0, NumE.const 0, NumE.const 0]).isSome = true) := by
  refine ⟨?_, readOperand_const4,
    ⟨by decide, by decide, by decide, by decide⟩, ⟨by decide, by decide, by decide, by decide⟩⟩
  intro xs
  induction xs with
  | nil => intro _; rfl
  | cons x xs ih =>
    intro h
    rcases h x (List.mem_cons_self x xs) with ⟨c, rfl⟩
    rw [inputRangeChecks]
    exact ih fun y hy => h y (List.mem_cons_of_mem _ hy)

/-- C10 witness: a constant limb of value exactly `2^64` passes through
every gadget with its full value and no range check. -/
theorem c10_constant_limbs_never_range_checked_witness :
    inputRangeChecks [NumE.const 5, NumE.const 6] = []
      ∧ readOperand [NumE.const (2 ^ 64), NumE.const 0, NumE.const 0, NumE.const 0]
        = some (2 ^ 64)
      ∧ (simple_add [NumE.const (2 ^ 64), NumE.const 0, NumE.const 0, NumE.const 0]
          [NumE.const 0, NumE.const 0, NumE.const 0, NumE.const 0]).isSome = true
      ∧ (simple_sub [NumE.const (2 ^ 64), NumE.const 0, NumE.const 0, NumE.const 0]
          [NumE.const 0, NumE.const 0, NumE.const 0, NumE.const 0]).isSome = true
      ∧ (simple_mul [NumE.const (2 ^ 64), NumE.const 0, NumE.const 0, NumE.const 0]
          [NumE.const 0, NumE.const 0, NumE.const 0, NumE.const 0]).isSome = true
      ∧ (simple_div [NumE.const (2 ^ 64), NumE.const 0, NumE.const 0, NumE.const 0,
          NumE.const 0, NumE.const 0, NumE.const 0, NumE.const 0]
          [NumE.const 1, NumE.const 0, NumE.const 0, NumE.const 0]).isSome = true :=
  ⟨c10_constant_limbs_never_range_checked.1 [NumE.const 5, NumE.const 6]
      (by intro x hx; fin_cases hx <;> exact ⟨_, rfl⟩),
   c10_constant_limbs_never_range_checked.2.1 (2 ^ 64),
   c10_constant_limbs_never_range_checked.2.2.1.1,
   c10_constant_limbs_never_range_checked.2.2.1.2.1,
   c10_constant_limbs_never_range_checked.2.2.1.2.2.1,
   c10_constant_limbs_never_range_checked.2.2.1.2.2.2⟩

end Franklin
